import Mathlib

/-!
Shallow embedding of the secret-scanner detection engine
(`secret_scanner.py`): the signature registry, the backtracking
semantics of the six regular expressions it uses (via a small regex
interpreter covering exactly the constructs appearing in those
expressions), the Shannon-entropy detector, the risk classifier and the
per-line / per-file scanning loops.  Lines are modelled as `List Char`;
Python floats are modelled as real numbers.  Character classes follow
the ASCII reading of the regexes (the scanner is only ever exercised on
ASCII secrets).
-/

/-- Lines and substrings are lists of characters. -/
abbrev Chars := List Char

/-- ASCII whitespace, the characters matched by the regex class `\s`
and stripped by Python `str.strip()`. -/
def isSpace (c : Char) : Bool :=
  c == ' ' || c == '\t' || c == '\n' || c == '\r' || c == '\x0b' || c == '\x0c'

/-- Python `str.strip()`: drop whitespace from both ends. -/
def strip (cs : Chars) : Chars :=
  ((cs.dropWhile isSpace).reverse.dropWhile isSpace).reverse

/-- The regex character class `["']` (either quote). -/
def isQuote (c : Char) : Bool :=
  c == '"' || c == Char.ofNat 39

/-- The regex character class `[0-9A-Z]`. -/
def isDigitOrUpper (c : Char) : Bool :=
  c.isDigit || c.isUpper

/-- The regex character class `[a-zA-Z0-9+/=_-]` used by the entropy
extraction patterns. -/
def isTokenChar (c : Char) : Bool :=
  c.isAlphanum || c == '+' || c == '/' || c == '=' || c == '_' || c == '-'

/-- The regex character class `["\s:=]` from the Generic API Key
signature. -/
def isKeySep (c : Char) : Bool :=
  c == '"' || isSpace c || c == ':' || c == '='

/-- Regex constructs appearing in the scanner's six patterns: literal
text, a single character of a class, a greedy optional character of a
class (`[..]?`), a greedy repetition of a class with a lower and an
optional upper bound (`[..]{n}`, `[..]{n,}`, `.*`), and a negative
lookahead on a class (`(?![..])`). -/
inductive Re where
  | lit : Chars → Re
  | cls : (Char → Bool) → Re
  | opt : (Char → Bool) → Re
  | rep : (Char → Bool) → Nat → Option Nat → Re
  | nla : (Char → Bool) → Re

/-- Length of the maximal prefix of `cs` whose characters satisfy `p`. -/
def charRun (p : Char → Bool) : Chars → Nat
  | [] => 0
  | c :: cs => if p c then charRun p cs + 1 else 0

/-- Greedy backtracking loop for a repetition: try to finish the match
with the continuation `m` after consuming `k` repeated characters, and
on failure retry with `k - 1`, not going below `lo`.  `fuel` bounds the
number of attempts. -/
def repGo (m : Chars → Option (List Nat)) (cs : Chars) (lo : Nat) :
    Nat → Nat → Option (List Nat)
  | 0, _ => none
  | fuel + 1, k =>
    match (m (cs.drop k)).map (fun r => k :: r) with
    | some r => some r
    | none => if k ≤ lo then none else repGo m cs lo fuel (k - 1)

/-- Backtracking matcher for a sequence of regex components anchored at
the start of `cs`.  On success it returns the list of lengths consumed
by each component (so capturing groups can be recovered), following the
leftmost-greedy strategy of Python `re`. -/
def seqMatch : List Re → Chars → Option (List Nat)
  | [], _ => some []
  | Re.lit l :: rest, cs =>
    if l.isPrefixOf cs then (seqMatch rest (cs.drop l.length)).map (fun r => l.length :: r)
    else none
  | Re.cls p :: rest, cs =>
    match cs with
    | [] => none
    | c :: cs' => if p c then (seqMatch rest cs').map (fun r => 1 :: r) else none
  | Re.opt p :: rest, cs =>
    match cs with
    | [] => (seqMatch rest []).map (fun r => 0 :: r)
    | c :: cs' =>
      if p c then
        match seqMatch rest cs' with
        | some r => some (1 :: r)
        | none => (seqMatch rest (c :: cs')).map (fun r => 0 :: r)
      else (seqMatch rest (c :: cs')).map (fun r => 0 :: r)
  | Re.rep p lo hi :: rest, cs =>
    let run := charRun p cs
    let k0 := match hi with
      | some h => Nat.min run h
      | none => run
    if k0 < lo then none
    else repGo (seqMatch rest) cs lo (k0 + 1 - lo) k0
  | Re.nla p :: rest, cs =>
    match cs with
    | [] => (seqMatch rest []).map (fun r => 0 :: r)
    | c :: _ => if p c then none else (seqMatch rest cs).map (fun r => 0 :: r)

/-- Negative lookbehind test: a position is admissible unless a
lookbehind class is present and the preceding character is in it. -/
def lbOk (lb : Option (Char → Bool)) (prev : Option Char) : Bool :=
  match lb with
  | none => true
  | some q =>
    match prev with
    | none => true
    | some c => !(q c)

/-- Scan positions left to right, as `re.search` does, optionally
enforcing a negative lookbehind class at the candidate position.  On
success it returns the match position, the component lengths, the
character preceding the position and the suffix at the position. -/
def searchFrom (lb : Option (Char → Bool)) (m : Chars → Option (List Nat)) :
    Option Char → Nat → Chars → Option (Nat × List Nat × Option Char × Chars)
  | prev, i, cs =>
    match (if lbOk lb prev then m cs else none) with
    | some r => some (i, r, prev, cs)
    | none =>
      match cs with
      | [] => none
      | c :: cs' => searchFrom lb m (some c) (i + 1) cs'

/-- Python `re.search`: first match anywhere in the line (the patterns
used through `re.search` have no lookbehind). -/
def re_search (p : List Re) (cs : Chars) : Option (Nat × List Nat × Option Char × Chars) :=
  searchFrom none (seqMatch p) none 0 cs

/-- Python `re.finditer`: all non-overlapping matches, resuming after
the end of each match (advancing one character past an empty match). -/
def finditerGo (lb : Option (Char → Bool)) (m : Chars → Option (List Nat)) :
    Nat → Option Char → Nat → Chars → List (Nat × List Nat)
  | 0, _, _, _ => []
  | fuel + 1, prev, i, cs =>
    match searchFrom lb m prev i cs with
    | none => []
    | some (j, r, pj, cj) =>
      let step := Nat.max r.sum 1
      let prev' := match (cj.take step).getLast? with
        | some c => some c
        | none => pj
      (j, r) :: finditerGo lb m fuel prev' (j + step) (cj.drop step)

/-- All matches of a pattern in a line, in order of position. -/
def re_finditer (lb : Option (Char → Bool)) (p : List Re) (cs : Chars) :
    List (Nat × List Nat) :=
  finditerGo lb (seqMatch p) (cs.length + 1) none 0 cs

/-- Python `match.group()`: the whole text consumed by a match of total length
`len` found at position `j`. -/
def matchValue (cs : Chars) (j len : Nat) : Chars :=
  (cs.drop j).take len

/-- Python `match.group(g)` where capturing group `g` is the `g`-th component
of the pattern: the text consumed by that component. -/
def groupValue (cs : Chars) (j g : Nat) (r : List Nat) : Chars :=
  (cs.drop (j + (r.take g).sum)).take (r.getD g 0)

/-- Signature expression `AKIA[0-9A-Z]{16}`. -/
def awsRe : List Re :=
  [Re.lit "AKIA".data, Re.rep isDigitOrUpper 16 (some 16)]

/-- Signature expression `ghp_[0-9a-zA-Z]{36}`. -/
def ghpRe : List Re :=
  [Re.lit "ghp_".data, Re.rep Char.isAlphanum 36 (some 36)]

/-- Signature expression `api[_-]?key["\s:=]+["']?[0-9a-zA-Z]{32,}["']?`. -/
def apiKeyRe : List Re :=
  [Re.lit "api".data, Re.opt (fun c => c == '_' || c == '-'), Re.lit "key".data,
    Re.rep isKeySep 1 none, Re.opt isQuote, Re.rep Char.isAlphanum 32 none, Re.opt isQuote]

/-- Signature expression `-----BEGIN .* PRIVATE KEY-----` (the dot
matches anything but a newline). -/
def privateKeyRe : List Re :=
  [Re.lit "-----BEGIN ".data, Re.rep (fun c => !(c == '\n')) 0 none,
    Re.lit " PRIVATE KEY-----".data]

/-- Registry `self.patterns`: the signature registry, in insertion order. -/
def patterns : List (String × List Re) :=
  [("AWS Access Key", awsRe), ("GitHub Token", ghpRe),
    ("Generic API Key", apiKeyRe), ("Private Key", privateKeyRe)]

/-- Table `self.risk_levels`: statically assigned severities. -/
def risk_levels : List (String × String) :=
  [("AWS Access Key", "HIGH"), ("GitHub Token", "HIGH"),
    ("Private Key", "HIGH"), ("Generic API Key", "MEDIUM")]

/-- Method `SecretScanner.calculate_risk`: a statically assigned severity when
the finding type is registered, otherwise graded by entropy when one is
given, otherwise `MEDIUM`. -/
noncomputable def calculate_risk (finding_type : String) (entropy : Option ℝ) : String :=
  match List.lookup finding_type risk_levels with
  | some r => r
  | none =>
    match entropy with
    | some x => if (5 : ℝ) ≤ x then "HIGH" else if (4.5 : ℝ) ≤ x then "MEDIUM" else "LOW"
    | none => "MEDIUM"

/-- Method `SecretScanner.calculate_entropy`: Shannon entropy of the character
distribution of a string, in bits.  The dictionary of character counts
is modelled by the counts of the deduplicated character list (summation
order is immaterial for the total), and the `probability` local of the
source is inlined. -/
noncomputable def calculate_entropy (s : Chars) : ℝ :=
  if s = [] then 0
  else
    (s.dedup.map (fun c =>
      -((s.count c : ℝ) / (s.length : ℝ) *
        Real.logb 2 ((s.count c : ℝ) / (s.length : ℝ))))).sum

/-- The quoted-run extraction pattern `["']([a-zA-Z0-9+/=_-]{20,})["']`;
group 1 is component 1. -/
def quotedRe : List Re :=
  [Re.cls isQuote, Re.rep isTokenChar 20 none, Re.cls isQuote]

/-- The unquoted-run extraction pattern
`(?<![a-zA-Z0-9])([a-zA-Z0-9+/=_-]{32,})(?![a-zA-Z0-9])`; the
lookbehind is handled by the search driver and group 1 is component 0. -/
def longRunRe : List Re :=
  [Re.rep isTokenChar 32 none, Re.nla Char.isAlphanum]

/-- Group-1 texts of all matches of one extraction pattern in a line. -/
def candidatesOf (lb : Option (Char → Bool)) (p : List Re) (g : Nat) (line : Chars) :
    List Chars :=
  (re_finditer lb p line).map (fun m => groupValue line m.1 g m.2)

/-- The candidate strings scanned by `find_high_entropy_strings`, in
the order produced by the two `re.finditer` loops (no deduplication
between the two patterns appears in the source). -/
def extract_candidates (line : Chars) : List Chars :=
  candidatesOf none quotedRe 1 line ++ candidatesOf (some Char.isAlphanum) longRunRe 0 line

/-- The entropy-threshold filter at the end of
`find_high_entropy_strings`: keep a candidate, paired with its entropy,
when its entropy reaches the minimum. -/
noncomputable def entFilter (min_entropy : ℝ) : List Chars → List (Chars × ℝ)
  | [] => []
  | s :: rest =>
    if min_entropy ≤ calculate_entropy s then
      (s, calculate_entropy s) :: entFilter min_entropy rest
    else entFilter min_entropy rest

/-- Method `SecretScanner.find_high_entropy_strings`. -/
noncomputable def find_high_entropy_strings (min_entropy : ℝ) (line : Chars) :
    List (Chars × ℝ) :=
  entFilter min_entropy (extract_candidates line)

/-- One reported secret: the dictionary appended to `findings`.  The
`entropy` key is only present in the dictionaries built for high-entropy
strings, hence an `Option`. -/
structure Finding where
  type : String
  risk : String
  entropy : Option ℝ
  file : String
  line : Nat
  value : Chars
  context : Chars

/-- The finding dictionary built for a regex-pattern match
(`scan_file`, method 1): no entropy key, risk computed without an
entropy argument, context is the stripped line. -/
noncomputable def sigFinding (file : String) (n : Nat) (line : Chars)
    (name : String) (value : Chars) : Finding :=
  { type := name, risk := calculate_risk name none, entropy := none,
    file := file, line := n, value := value, context := strip line }

/-- The finding dictionary built for a high-entropy string
(`scan_file`, method 2). -/
noncomputable def entFinding (file : String) (n : Nat) (line : Chars)
    (se : Chars × ℝ) : Finding :=
  { type := "High Entropy String", risk := calculate_risk "High Entropy String" (some se.2),
    entropy := some se.2, file := file, line := n, value := se.1, context := strip line }

/-- Method 1 of the per-line loop of `scan_file`: for each signature of
the registry in order, `re.search` and at most one finding holding the
whole matched text. -/
noncomputable def sig_findings (file : String) (n : Nat) (line : Chars) : List Finding :=
  patterns.filterMap (fun pr =>
    (re_search pr.2 line).map (fun m =>
      sigFinding file n line pr.1 (matchValue line m.1 m.2.1.sum)))

/-- The body of the per-line loop of `SecretScanner.scan_file`: first
one finding per signature that `re.search` matches (method 1), then one
finding per surviving high-entropy candidate (method 2). -/
noncomputable def scan_line (min_entropy : ℝ) (file : String) (n : Nat) (line : Chars) :
    List Finding :=
  sig_findings file n line
    ++ (find_high_entropy_strings min_entropy line).map (entFinding file n line)

/-- The enumerated line loop of `scan_file`, starting at line number
`n`. -/
noncomputable def scan_lines (min_entropy : ℝ) (file : String) (n : Nat) :
    List Chars → List Finding
  | [] => []
  | l :: rest => scan_line min_entropy file n l ++ scan_lines min_entropy file (n + 1) rest

/-- Method `SecretScanner.scan_file` on a file whose decodable prefix is
`content` (the lines yielded before any decode failure).  When decoding
fails (`decode_error = true`) the `UnicodeDecodeError` is caught by
`except UnicodeDecodeError: pass` and the findings accumulated so far
are returned; no lines after the failure are scanned. -/
noncomputable def scan_file (min_entropy : ℝ) (file : String) (content : List Chars)
    (decode_error : Bool) : List Finding :=
  scan_lines min_entropy file 1 content

/-! Concrete input fixtures used to settle the claims. -/

/-- A line that is exactly an AWS access key. -/
def line_aws : Chars := "AKIA1234567890ABCDEF".data

/-- The same AWS key with leading whitespace. -/
def line_aws_indent : Chars := "  AKIA1234567890ABCDEF".data

/-- A 40-character token over the entropy charset with 40 distinct
characters. -/
def tok40 : Chars := "ABCDEFGHIJKLMNOPQRSTUVWXYZ0123456789abcd".data

/-- An assignment line holding `tok40` in double quotes and matching no
signature. -/
def line_tok40 : Chars := ("x = \"ABCDEFGHIJKLMNOPQRSTUVWXYZ0123456789abcd\"").data

/-- A line whose 20-character charset token is opened by a double quote
and closed by a single quote. -/
def line_mixed_quotes : Chars := "x=\"ABCDEFGHIJKLMNOPQRST".data ++ [Char.ofNat 39]

/-- Position of a signature name in the registry, used to state the
registry-order part of the output ordering. -/
def sigIndex (t : String) : Nat :=
  (patterns.map Prod.fst).indexOf t

/-- The order relation stated for the finding stream: non-decreasing
line numbers and, within one line, no entropy finding before a
signature finding, signature findings in strict registry order. -/
def findingOrder (fd gd : Finding) : Prop :=
  fd.line ≤ gd.line ∧
    (fd.line = gd.line →
      ((gd.entropy = none → fd.entropy = none) ∧
        (fd.entropy = none → gd.entropy = none → sigIndex fd.type < sigIndex gd.type)))

/-! Helper lemmas about `calculate_entropy`. -/

/-- Sum of a constant real over a list. -/
lemma sum_map_const_real (l : Chars) (E : ℝ) : (l.map (fun _ => E)).sum = l.length * E := by
  induction l with
  | nil => simp
  | cons c cs ih => simp [ih]; ring

/-- Deduplication does not change the character set. -/
lemma dedup_toFinset (s : Chars) : s.dedup.toFinset = s.toFinset :=
  List.toFinset.ext_iff.mpr (fun _ => List.mem_dedup)

lemma calculate_entropy_nil : calculate_entropy [] = 0 := by
  simp [calculate_entropy]

lemma calculate_entropy_nonneg (s : Chars) : 0 ≤ calculate_entropy s := by
  unfold calculate_entropy
  split
  · exact le_refl 0
  · rename_i hne
    apply List.sum_nonneg
    intro x hx
    obtain ⟨c, hc, rfl⟩ := List.mem_map.mp hx
    have hcs : c ∈ s := List.mem_dedup.mp hc
    have hn : 0 < s.length := List.length_pos.mpr hne
    have hcount : 0 < s.count c := List.count_pos_iff.mpr hcs
    have hp0 : (0:ℝ) ≤ (s.count c : ℝ) / (s.length : ℝ) := by positivity
    have hp1 : (s.count c : ℝ) / (s.length : ℝ) ≤ 1 := by
      rw [div_le_one (by exact_mod_cast hn)]
      exact_mod_cast s.count_le_length c
    have hlog := Real.logb_nonpos (b := 2) (by norm_num) hp0 hp1
    nlinarith

lemma calculate_entropy_le (s : Chars) :
    calculate_entropy s ≤ Real.logb 2 (s.dedup.length : ℝ) := by
  rcases eq_or_ne s [] with rfl | hne
  · simp [calculate_entropy, Real.logb_zero]
  · have hn : 0 < s.length := List.length_pos.mpr hne
    have hn' : (0:ℝ) < (s.length : ℝ) := by exact_mod_cast hn
    have hlog2 : (0:ℝ) < Real.log 2 := Real.log_pos (by norm_num)
    rw [calculate_entropy, if_neg hne, ← List.sum_toFinset _ (s.nodup_dedup), dedup_toFinset]
    have hwpos : ∀ c ∈ s.toFinset, (0:ℝ) < (s.count c : ℝ) / (s.length : ℝ) := by
      intro c hc
      have : 0 < s.count c := List.count_pos_iff.mpr (List.mem_toFinset.mp hc)
      positivity
    have hcard : (s.dedup.length : ℝ) = (s.toFinset.card : ℝ) := by
      rw [← dedup_toFinset, List.toFinset_card_of_nodup (s.nodup_dedup)]
    calc (∑ c in s.toFinset,
            -((s.count c : ℝ) / (s.length : ℝ) *
              Real.logb 2 ((s.count c : ℝ) / (s.length : ℝ))))
        = (∑ c in s.toFinset, ((s.count c : ℝ) / (s.length : ℝ)) •
            Real.log (((s.count c : ℝ) / (s.length : ℝ))⁻¹)) / Real.log 2 := by
          rw [Finset.sum_div]
          apply Finset.sum_congr rfl
          intro c hc
          rw [smul_eq_mul, Real.log_inv, Real.logb]
          ring
      _ ≤ Real.log (∑ c in s.toFinset, ((s.count c : ℝ) / (s.length : ℝ)) •
            (((s.count c : ℝ) / (s.length : ℝ))⁻¹)) / Real.log 2 := by
          gcongr
          apply (strictConcaveOn_log_Ioi.concaveOn).le_map_sum
          · intro c hc
            exact le_of_lt (hwpos c hc)
          · rw [← Finset.sum_div]
            rw [show (∑ c in s.toFinset, (s.count c : ℝ)) = (s.length : ℝ) by
              exact_mod_cast congrArg (Nat.cast (R := ℝ)) (List.sum_toFinset_count_eq_length s)]
            exact div_self (ne_of_gt hn')
          · intro c hc
            exact Set.mem_Ioi.mpr (inv_pos.mpr (hwpos c hc))
      _ = Real.log ((s.toFinset.card : ℝ)) / Real.log 2 := by
          congr 1
          rw [Finset.sum_congr rfl (fun c hc => by
            rw [smul_eq_mul, mul_inv_cancel₀ (ne_of_gt (hwpos c hc))])]
          simp
      _ = Real.logb 2 ((s.dedup.length : ℝ)) := by rw [Real.logb, hcard]

lemma calculate_entropy_nodup {s : Chars} (hnd : s.Nodup) (hne : s ≠ []) :
    calculate_entropy s = Real.logb 2 (s.length : ℝ) := by
  have hn : 0 < s.length := List.length_pos.mpr hne
  have hn' : (0:ℝ) < (s.length : ℝ) := by exact_mod_cast hn
  rw [calculate_entropy, if_neg hne, List.dedup_eq_self.mpr hnd]
  rw [List.map_congr_left
    (g := fun _ => ((s.length : ℝ))⁻¹ * Real.logb 2 (s.length : ℝ)) ?_]
  · rw [sum_map_const_real]
    field_simp
  · intro c hc
    rw [List.count_eq_one_of_mem hnd hc]
    rw [show ((1:ℕ):ℝ) / (s.length : ℝ) = ((s.length : ℝ))⁻¹ by push_cast; ring]
    rw [Real.logb_inv]
    ring

/-- Entropy of the 40-distinct-character token. -/
lemma tok40_entropy : calculate_entropy tok40 = Real.logb 2 40 := by
  rw [calculate_entropy_nodup (by decide) (by decide)]
  norm_num [show tok40.length = 40 from by decide]

/-- Lower bound used for the threshold comparisons: `log2 40 ≥ 5`. -/
lemma five_le_logb_forty : (5:ℝ) ≤ Real.logb 2 40 := by
  have h32 : Real.logb 2 32 = 5 := by
    rw [show (32:ℝ) = (2:ℝ) ^ (5:ℕ) by norm_num, Real.logb_pow,
      Real.logb_self_eq_one (by norm_num)]
    norm_num
  rw [← h32]
  exact Real.logb_le_logb_of_le (by norm_num) (by norm_num) (by norm_num)

/-! Helper lemmas about the entropy filter. -/

lemma entFilter_nil (θ : ℝ) : entFilter θ [] = [] := rfl

lemma entFilter_cons_pos {θ : ℝ} {s : Chars} (rest : List Chars)
    (h : θ ≤ calculate_entropy s) :
    entFilter θ (s :: rest) = (s, calculate_entropy s) :: entFilter θ rest := by
  simp [entFilter, h]

lemma entFilter_cons_neg {θ : ℝ} {s : Chars} (rest : List Chars)
    (h : ¬ θ ≤ calculate_entropy s) :
    entFilter θ (s :: rest) = entFilter θ rest := by
  simp [entFilter, h]

lemma mem_entFilter {θ : ℝ} {p : Chars × ℝ} :
    ∀ {l : List Chars}, p ∈ entFilter θ l → θ ≤ p.2 ∧ p.2 = calculate_entropy p.1
  | [], h => by simp [entFilter] at h
  | s :: rest, h => by
    by_cases hs : θ ≤ calculate_entropy s
    · rw [entFilter_cons_pos rest hs] at h
      rcases List.mem_cons.mp h with rfl | h
      · exact ⟨hs, rfl⟩
      · exact mem_entFilter h
    · rw [entFilter_cons_neg rest hs] at h
      exact mem_entFilter h

/-! Concrete evaluations of the computable layers. -/

lemma extract_candidates_line_aws : extract_candidates line_aws = [] := rfl

lemma extract_candidates_line_tok40 :
    extract_candidates line_tok40 = [tok40, tok40] := rfl

lemma extract_candidates_line_mixed_quotes :
    extract_candidates line_mixed_quotes = ["ABCDEFGHIJKLMNOPQRST".data] := rfl

/-- Full scan of the one-line file that is exactly an AWS key. -/
lemma scan_aws_eval (err : Bool) :
    scan_file 4.5 "config.txt" [line_aws] err =
      [ { type := "AWS Access Key", risk := "HIGH", entropy := none, file := "config.txt",
          line := 1, value := line_aws, context := line_aws } ] := rfl

/-- Full scan of the one-line file whose line is the AWS key with
leading whitespace: the context is the stripped line. -/
lemma scan_aws_indent_eval :
    scan_file 4.5 "config.txt" [line_aws_indent] false =
      [ { type := "AWS Access Key", risk := "HIGH", entropy := none, file := "config.txt",
          line := 1, value := line_aws, context := line_aws } ] := rfl

/-- Risk classification of an unregistered kind at entropy at least 5. -/
lemma calculate_risk_hes_high {x : ℝ} (h : (5:ℝ) ≤ x) :
    calculate_risk "High Entropy String" (some x) = "HIGH" := by
  show (if (5:ℝ) ≤ x then "HIGH" else if (4.5:ℝ) ≤ x then "MEDIUM" else "LOW") = "HIGH"
  rw [if_pos h]

/-- Scanning a one-line file splits into the signature part and the
entropy part of that line. -/
lemma scan_file_singleton (θ : ℝ) (f : String) (l : Chars) (err : Bool) :
    scan_file θ f [l] err =
      sig_findings f 1 l ++ (entFilter θ (extract_candidates l)).map (entFinding f 1 l) := by
  show scan_lines θ f 1 [l] = _
  simp only [scan_lines, scan_line, find_high_entropy_strings, List.append_nil]

/-- Full scan of the one-line file holding the quoted 40-character
token: both extraction patterns deliver the token, and both candidates
pass the default threshold. -/
lemma scan_tok40_eval :
    scan_file 4.5 "config.txt" [line_tok40] false =
      [ { type := "High Entropy String", risk := "HIGH", entropy := some (Real.logb 2 40),
          file := "config.txt", line := 1, value := tok40, context := line_tok40 },
        { type := "High Entropy String", risk := "HIGH", entropy := some (Real.logb 2 40),
          file := "config.txt", line := 1, value := tok40, context := line_tok40 } ] := by
  have h45 : (4.5:ℝ) ≤ calculate_entropy tok40 := by
    rw [tok40_entropy]; linarith [five_le_logb_forty]
  have h5 : (5:ℝ) ≤ calculate_entropy tok40 := by
    rw [tok40_entropy]; exact five_le_logb_forty
  rw [scan_file_singleton, extract_candidates_line_tok40,
    entFilter_cons_pos _ h45, entFilter_cons_pos _ h45, entFilter_nil,
    show sig_findings "config.txt" 1 line_tok40 = [] from rfl]
  simp only [List.nil_append, List.map_cons, List.map_nil, entFinding, tok40_entropy,
    calculate_risk_hes_high five_le_logb_forty,
    show strip line_tok40 = line_tok40 from rfl]

/-! Structural lemmas about the scanning loops. -/

/-- Inversion for membership in the signature part of a line scan. -/
lemma mem_sig_findings {f : String} {n : Nat} {line : Chars} {fd : Finding}
    (h : fd ∈ sig_findings f n line) :
    ∃ name re m, (name, re) ∈ patterns ∧ re_search re line = some m ∧
      fd = sigFinding f n line name (matchValue line m.1 m.2.1.sum) := by
  obtain ⟨pr, hpr, hmap⟩ := List.mem_filterMap.mp h
  obtain ⟨m, hm, rfl⟩ := Option.map_eq_some'.mp hmap
  exact ⟨pr.1, pr.2, m, hpr, hm, rfl⟩

/-- Any finding of a line scan carries that line number, the stripped
line as context, and is either a signature finding without entropy or a
high-entropy finding at or above the threshold. -/
lemma scan_line_cases {θ : ℝ} {f : String} {n : Nat} {line : Chars} {fd : Finding}
    (h : fd ∈ scan_line θ f n line) :
    fd.line = n ∧ fd.context = strip line ∧
      ((fd.entropy = none ∧ fd.type ∈ patterns.map Prod.fst) ∨
        (∃ e, fd.entropy = some e ∧ θ ≤ e ∧ fd.type = "High Entropy String")) := by
  rcases List.mem_append.mp h with h | h
  · obtain ⟨name, re, m, hpr, hm, rfl⟩ := mem_sig_findings h
    refine ⟨rfl, rfl, Or.inl ⟨rfl, ?_⟩⟩
    exact List.mem_map.mpr ⟨(name, re), hpr, rfl⟩
  · obtain ⟨se, hse, rfl⟩ := List.mem_map.mp h
    obtain ⟨hθ, _⟩ := mem_entFilter (by simpa [find_high_entropy_strings] using hse)
    exact ⟨rfl, rfl, Or.inr ⟨se.2, rfl, hθ, rfl⟩⟩

/-- Inversion for membership in a multi-line scan: the finding comes
from the line at its recorded (1-based, offset by `n`) line number. -/
lemma scan_lines_mem_cases {θ : ℝ} {f : String} :
    ∀ {ls : List Chars} {n : Nat} {fd : Finding}, fd ∈ scan_lines θ f n ls →
      ∃ line, ls.get? (fd.line - n) = some line ∧ n ≤ fd.line ∧
        fd ∈ scan_line θ f fd.line line
  | [], n, fd, h => by simp [scan_lines] at h
  | l :: rest, n, fd, h => by
    rcases List.mem_append.mp (by simpa [scan_lines] using h) with h | h
    · have hline : fd.line = n := (scan_line_cases h).1
      exact ⟨l, by simp [hline], le_of_eq hline.symm, hline ▸ h⟩
    · obtain ⟨line, hget, hle, hmem⟩ := scan_lines_mem_cases h
      refine ⟨line, ?_, by omega, hmem⟩
      rw [show fd.line - n = (fd.line - (n + 1)) + 1 from by omega]
      simpa using hget

/-! Specification of `re.search` without lookbehind: it returns the
leftmost position whose suffix matches. -/

lemma searchFrom_none_spec {m : Chars → Option (List Nat)} :
    ∀ (cs : Chars) (prev : Option Char) (i j : Nat) (r : List Nat) (pj : Option Char)
      (cj : Chars), searchFrom none m prev i cs = some (j, r, pj, cj) →
      i ≤ j ∧ cj = cs.drop (j - i) ∧ m cj = some r ∧
        ∀ t, t < j - i → m (cs.drop t) = none
  | [], prev, i, j, r, pj, cj, h => by
    rw [searchFrom] at h
    cases hm : m [] with
    | none => simp [hm] at h
    | some r0 =>
      simp only [hm] at h
      obtain ⟨rfl, rfl, rfl, rfl⟩ := by
        simpa using h
      refine ⟨le_refl _, by simp, by simpa using hm, ?_⟩
      intro t ht
      omega
  | c :: cs', prev, i, j, r, pj, cj, h => by
    rw [searchFrom] at h
    cases hm : m (c :: cs') with
    | some r0 =>
      simp only [hm] at h
      obtain ⟨rfl, rfl, rfl, rfl⟩ := by
        simpa using h
      refine ⟨le_refl _, by simp, by simpa using hm, ?_⟩
      intro t ht
      omega
    | none =>
      simp only [hm] at h
      obtain ⟨hij, hcj, hmc, hmin⟩ :=
        searchFrom_none_spec cs' (some c) (i + 1) j r pj cj h
      refine ⟨by omega, ?_, hmc, ?_⟩
      · rw [hcj, show j - i = (j - (i + 1)) + 1 from by omega, List.drop_succ_cons]
      · intro t ht
        cases t with
        | zero => simpa using hm
        | succ t' =>
          rw [List.drop_succ_cons]
          exact hmin t' (by omega)

/-- Python `re.search` finds a match at its reported position and no match
starts at any earlier position. -/
lemma re_search_leftmost {p : List Re} {cs : Chars} {j : Nat} {r : List Nat}
    {pj : Option Char} {cj : Chars} (h : re_search p cs = some (j, r, pj, cj)) :
    cj = cs.drop j ∧ seqMatch p cj = some r ∧
      ∀ t, t < j → seqMatch p (cs.drop t) = none := by
  obtain ⟨_, hcj, hm, hmin⟩ := searchFrom_none_spec cs none 0 j r pj cj h
  refine ⟨by simpa using hcj, hm, fun t ht => hmin t (by omega)⟩

/-! Counting signature findings per signature. -/

/-- Each finding of the signature loop carries the name of the registry
entry it came from, so a name occurs at most as often as it occurs in
the registry. -/
lemma countP_sig_findings_le (f : String) (n : Nat) (line : Chars) (name : String) :
    ∀ l : List (String × List Re),
      ((l.filterMap (fun pr => (re_search pr.2 line).map (fun m =>
          sigFinding f n line pr.1 (matchValue line m.1 m.2.1.sum)))).countP
        (fun fd => fd.type == name)) ≤ l.countP (fun pr => pr.1 == name)
  | [] => by simp
  | pr :: l => by
    rw [List.filterMap_cons, List.countP_cons]
    cases re_search pr.2 line with
    | none =>
      simp only [Option.map_none']
      exact le_trans (countP_sig_findings_le f n line name l) (Nat.le_add_right _ _)
    | some m =>
      simp only [Option.map_some', List.countP_cons]
      have htype : (sigFinding f n line pr.1 (matchValue line m.1 m.2.1.sum)).type = pr.1 :=
        rfl
      rw [htype]
      exact Nat.add_le_add (countP_sig_findings_le f n line name l) (le_refl _)

/-! Ordering lemmas. -/

lemma pairwise_scan_line (θ : ℝ) (f : String) (n : Nat) (line : Chars) :
    (scan_line θ f n line).Pairwise findingOrder := by
  rw [scan_line]
  refine List.pairwise_append.mpr ⟨?_, ?_, ?_⟩
  · refine List.Pairwise.filterMap _ ?_ (l := patterns)
      (R := fun pr qr => sigIndex pr.1 < sigIndex qr.1) ?_
    · intro a b hab x hx y hy
      rw [Option.mem_def, Option.map_eq_some'] at hx hy
      obtain ⟨_, _, rfl⟩ := hx
      obtain ⟨_, _, rfl⟩ := hy
      exact ⟨le_refl _, fun _ => ⟨fun _ => rfl, fun _ _ => hab⟩⟩
    · decide
  · apply List.pairwise_of_forall_mem_list
    intro x hx y hy
    obtain ⟨_, _, rfl⟩ := List.mem_map.mp hx
    obtain ⟨_, _, rfl⟩ := List.mem_map.mp hy
    exact ⟨le_refl _, fun _ => ⟨fun h => by simp [entFinding] at h, fun _ h => by
      simp [entFinding] at h⟩⟩
  · intro x hx y hy
    obtain ⟨nm, re, m, _, _, rfl⟩ := mem_sig_findings hx
    obtain ⟨_, _, rfl⟩ := List.mem_map.mp hy
    exact ⟨le_refl _, fun _ => ⟨fun h => by simp [entFinding] at h, fun _ h => by
      simp [entFinding] at h⟩⟩

lemma pairwise_scan_lines (θ : ℝ) (f : String) :
    ∀ (ls : List Chars) (n : Nat), (scan_lines θ f n ls).Pairwise findingOrder
  | [], n => by simp [scan_lines]
  | l :: rest, n => by
    rw [scan_lines]
    refine List.pairwise_append.mpr
      ⟨pairwise_scan_line θ f n l, pairwise_scan_lines θ f rest (n + 1), ?_⟩
    intro x hx y hy
    have hxl : x.line = n := (scan_line_cases hx).1
    obtain ⟨_, _, hyl, _⟩ := scan_lines_mem_cases hy
    exact ⟨by omega, fun h => absurd h (by omega)⟩

/-- Within one line, the entropy-kind findings are exactly the
surviving candidates, in extraction order. -/
lemma scan_line_filter_entropy (θ : ℝ) (f : String) (n : Nat) (line : Chars) :
    (scan_line θ f n line).filter (fun fd => fd.entropy.isSome) =
      (find_high_entropy_strings θ line).map (entFinding f n line) := by
  rw [scan_line, List.filter_append]
  rw [List.filter_eq_nil_iff.mpr ?_, List.filter_eq_self.mpr ?_, List.nil_append]
  · intro fd hfd
    obtain ⟨_, _, rfl⟩ := List.mem_map.mp hfd
    simp [entFinding]
  · intro fd hfd
    obtain ⟨_, _, _, _, _, rfl⟩ := mem_sig_findings hfd
    simp [sigFinding]

/-! The claims. -/

/-- C1, counterexample: the claim says the candidates of the two
extraction patterns are deduplicated by span, so a line with a quoted
40-character charset token of entropy at least 5.0 and no signature
match yields exactly one finding of kind "High Entropy String".  On the
code there is no deduplication: such a line yields two findings. -/
theorem c1_counterexample :
    ¬ ((scan_file 4.5 "config.txt" [line_tok40] false).countP
        (fun fd => fd.type == "High Entropy String") = 1) := by
  rw [scan_tok40_eval]
  decide

/-- C1, amended: the two extraction patterns are evaluated
independently and their candidates are not deduplicated, so a line with
a quoted 40-character charset token of entropy at least 5.0 and no
signature match yields exactly two findings of kind "High Entropy
String" with risk HIGH, one per extraction pattern. -/
theorem c1_no_dedup_two_findings :
    scan_file 4.5 "config.txt" [line_tok40] false =
      [ Finding.mk "High Entropy String" "HIGH" (some (Real.logb 2 40)) "config.txt" 1
          tok40 line_tok40,
        Finding.mk "High Entropy String" "HIGH" (some (Real.logb 2 40)) "config.txt" 1
          tok40 line_tok40 ] :=
  scan_tok40_eval

/-- C2, counterexample: the claim says a file hitting a decode error
contributes exactly zero findings even when some lines were already
scanned.  On the code the findings accumulated before the
`UnicodeDecodeError` are returned: a file whose decoded prefix is an
AWS-key line and which then fails to decode yields one finding. -/
theorem c2_counterexample :
    ¬ (scan_file 4.5 "config.txt" [line_aws] true = []) := by
  rw [scan_aws_eval]
  simp

/-- C2, amended: a decode error is caught silently, but only the rest
of the file is skipped: the scan returns exactly the findings of the
lines decoded before the failure (the same findings as if no error had
occurred on those lines), and a file that fails to decode from the
start yields zero findings; no error is raised either way. -/
theorem c2_decode_error_keeps_prefix_findings :
    (∀ (θ : ℝ) (f : String) (ls : List Chars),
      scan_file θ f ls true = scan_file θ f ls false)
    ∧ ∀ (θ : ℝ) (f : String) (err : Bool), scan_file θ f [] err = [] :=
  ⟨fun _ _ _ => rfl, fun _ _ _ => rfl⟩

/-- C3: the risk classifier returns the statically assigned severity
for every registered signature name regardless of entropy (AWS Access
Key, GitHub Token and Private Key give HIGH, Generic API Key gives
MEDIUM); for an unregistered kind with an entropy it grades HIGH at
entropy at least 5.0, MEDIUM in the interval from 4.5 up to 5.0 and LOW
below 4.5; and for an unregistered kind without entropy it returns
MEDIUM. -/
theorem c3_risk_classifier :
    (∀ e, calculate_risk "AWS Access Key" e = "HIGH")
    ∧ (∀ e, calculate_risk "GitHub Token" e = "HIGH")
    ∧ (∀ e, calculate_risk "Private Key" e = "HIGH")
    ∧ (∀ e, calculate_risk "Generic API Key" e = "MEDIUM")
    ∧ ∀ t, List.lookup t risk_levels = none →
        (∀ x : ℝ, ((5:ℝ) ≤ x → calculate_risk t (some x) = "HIGH") ∧
          ((4.5:ℝ) ≤ x → x < 5 → calculate_risk t (some x) = "MEDIUM") ∧
          (x < (4.5:ℝ) → calculate_risk t (some x) = "LOW")) ∧
        calculate_risk t none = "MEDIUM" := by
  refine ⟨fun e => rfl, fun e => rfl, fun e => rfl, fun e => rfl, ?_⟩
  intro t ht
  have hx : ∀ x : ℝ, calculate_risk t (some x) =
      (if (5:ℝ) ≤ x then "HIGH" else if (4.5:ℝ) ≤ x then "MEDIUM" else "LOW") := by
    intro x
    unfold calculate_risk
    rw [ht]
  refine ⟨fun x => ⟨fun h5 => ?_, fun h45 h5 => ?_, fun h45 => ?_⟩, ?_⟩
  · rw [hx, if_pos h5]
  · rw [hx, if_neg (by linarith), if_pos h45]
  · rw [hx, if_neg (by linarith), if_neg (by linarith)]
  · unfold calculate_risk
    rw [ht]

/-- C3, witness at a concrete unregistered kind and entropy. -/
theorem c3_witness :
    calculate_risk "High Entropy String" (some (4.7:ℝ)) = "MEDIUM" :=
  ((c3_risk_classifier.2.2.2.2 "High Entropy String" rfl).1 4.7).2.1
    (by norm_num) (by norm_num)

/-- C4: the entropy function is Shannon entropy of the character
distribution: for every string it is nonnegative and at most the base-2
logarithm of the number of distinct characters, the empty string has
entropy 0, and a string of eight identical characters has entropy 0. -/
theorem c4_entropy_properties :
    (∀ s : Chars, 0 ≤ calculate_entropy s ∧
      calculate_entropy s ≤ Real.logb 2 (s.dedup.length : ℝ))
    ∧ calculate_entropy [] = 0
    ∧ calculate_entropy "aaaaaaaa".data = 0 := by
  refine ⟨fun s => ⟨calculate_entropy_nonneg s, calculate_entropy_le s⟩,
    calculate_entropy_nil, ?_⟩
  rw [calculate_entropy, if_neg (by decide),
    show ("aaaaaaaa".data).dedup = ['a'] from by decide]
  simp only [List.map_cons, List.map_nil, List.sum_cons, List.sum_nil,
    show ("aaaaaaaa".data).count 'a' = 8 from by decide,
    show ("aaaaaaaa".data).length = 8 from by decide]
  norm_num

/-- C5: every finding of a scan has exactly one kind, the entropy field
is present exactly when that kind is "High Entropy String", and every
present entropy value is at least the configured threshold. -/
theorem c5_finding_invariant (θ : ℝ) (f : String) (ls : List Chars) (err : Bool) :
    ∀ fd ∈ scan_file θ f ls err,
      (fd.entropy.isSome ↔ fd.type = "High Entropy String") ∧
        ∀ e, fd.entropy = some e → θ ≤ e := by
  intro fd hfd
  obtain ⟨line, _, _, hmem⟩ :=
    scan_lines_mem_cases (show fd ∈ scan_lines θ f 1 ls from hfd)
  obtain ⟨_, _, hcase⟩ := scan_line_cases hmem
  rcases hcase with ⟨hnone, hmemty⟩ | ⟨e, hsome, hθ, hty⟩
  · constructor
    · rw [hnone]
      simp only [Option.isSome_none, Bool.false_eq_true, false_iff]
      intro h
      have hall : ∀ x ∈ patterns.map Prod.fst, x ≠ "High Entropy String" := by decide
      exact hall fd.type hmemty h
    · intro e he
      rw [hnone] at he
      cases he
  · constructor
    · rw [hsome, hty]
      simp
    · intro e' he'
      rw [hsome] at he'
      obtain rfl : e = e' := Option.some_inj.mp he'
      exact hθ

/-- C5, witness: the finding of the AWS-key line. -/
theorem c5_witness :
    ((Finding.mk "AWS Access Key" "HIGH" none "config.txt" 1 line_aws line_aws).entropy.isSome ↔
        (Finding.mk "AWS Access Key" "HIGH" none "config.txt" 1 line_aws line_aws).type =
          "High Entropy String")
    ∧ ∀ e, (Finding.mk "AWS Access Key" "HIGH" none "config.txt" 1 line_aws
        line_aws).entropy = some e → (4.5:ℝ) ≤ e :=
  c5_finding_invariant 4.5 "config.txt" [line_aws] false _
    (by rw [scan_aws_eval]; exact List.mem_singleton_self _)

/-- C6: the finding stream of a file is ordered: line numbers are
non-decreasing, within one line no entropy-kind finding precedes a
signature-kind finding and signature-kind findings appear in strict
registry order; moreover the entropy-kind findings of a line are the
surviving candidates in extraction order. -/
theorem c6_ordering (θ : ℝ) (f : String) (ls : List Chars) (err : Bool) :
    (scan_file θ f ls err).Pairwise findingOrder ∧
      ∀ (n : Nat) (line : Chars),
        (scan_line θ f n line).filter (fun fd => fd.entropy.isSome) =
          (find_high_entropy_strings θ line).map (entFinding f n line) :=
  ⟨pairwise_scan_lines θ f ls 1, fun n line => scan_line_filter_entropy θ f n line⟩

/-- C7: for every line and every signature of the registry, at most one
finding of that signature is emitted for the line, and its matched
value is the text of the leftmost match of the signature's expression:
no match starts at an earlier position. -/
theorem c7_first_match_per_signature (θ : ℝ) (f : String) (n : Nat) (line : Chars)
    (name : String) (re : List Re) (hp : (name, re) ∈ patterns) :
    ((scan_line θ f n line).countP (fun fd => fd.type == name)) ≤ 1 ∧
      ∀ fd ∈ scan_line θ f n line, fd.type = name →
        ∃ j r, seqMatch re (line.drop j) = some r ∧
          fd.value = matchValue line j r.sum ∧
          ∀ t, t < j → seqMatch re (line.drop t) = none := by
  have hnames : name ∈ patterns.map Prod.fst := List.mem_map.mpr ⟨(name, re), hp, rfl⟩
  have hnothes : name ≠ "High Entropy String" := by
    have hall : ∀ x ∈ patterns.map Prod.fst, x ≠ "High Entropy String" := by decide
    exact hall name hnames
  constructor
  · rw [scan_line, List.countP_append]
    have hent : ((find_high_entropy_strings θ line).map (entFinding f n line)).countP
        (fun fd => fd.type == name) = 0 := by
      rw [List.countP_eq_zero]
      intro fd hfd
      obtain ⟨se, _, rfl⟩ := List.mem_map.mp hfd
      simp only [entFinding, beq_iff_eq]
      exact fun h => hnothes h.symm
    rw [hent]
    have hone : ∀ nm ∈ patterns.map Prod.fst,
        patterns.countP (fun pr => pr.1 == nm) ≤ 1 := by decide
    exact le_trans (by simpa using countP_sig_findings_le f n line name patterns)
      (hone name hnames)
  · intro fd hfd hty
    rcases List.mem_append.mp hfd with hside | hside
    · obtain ⟨name', re', m, hp', hm, rfl⟩ := mem_sig_findings hside
      obtain ⟨j, r, pj, cj⟩ := m
      have hty' : name' = name := hty
      subst hty'
      have hre : re' = re := by
        simp only [patterns, List.mem_cons, List.not_mem_nil, or_false] at hp hp'
        rcases hp with h | h | h | h <;> obtain ⟨rfl, rfl⟩ := Prod.mk.inj h <;>
          rcases hp' with h' | h' | h' | h' <;>
            first
              | (obtain ⟨-, rfl⟩ := Prod.mk.inj h'; rfl)
              | (exact absurd (Prod.mk.inj h').1 (by decide))
      subst hre
      obtain ⟨hcj, hm', hmin⟩ := re_search_leftmost hm
      refine ⟨j, r, ?_, rfl, hmin⟩
      rw [← hcj]
      exact hm'
    · obtain ⟨se, _, rfl⟩ := List.mem_map.mp hside
      exact absurd hty.symm hnothes

/-- C7, witness: the AWS-key line and the AWS signature. -/
theorem c7_witness :
    ((scan_line 4.5 "config.txt" 1 line_aws).countP
      (fun fd => fd.type == "AWS Access Key")) ≤ 1 :=
  (c7_first_match_per_signature 4.5 "config.txt" 1 line_aws "AWS Access Key" awsRe
    (by unfold patterns; exact List.mem_cons_self _ _)).1

/-- C8, counterexample: the claim says the context field equals the
full, untrimmed line text.  On the code the context is the stripped
line: an indented AWS-key line produces a finding whose context is not
the line. -/
theorem c8_counterexample :
    ¬ (∀ fd ∈ scan_file 4.5 "config.txt" [line_aws_indent] false,
        fd.context = line_aws_indent) := by
  intro hall
  have h := hall (Finding.mk "AWS Access Key" "HIGH" none "config.txt" 1 line_aws line_aws)
    (by rw [scan_aws_indent_eval]; exact List.mem_singleton_self _)
  exact absurd h (by decide)

/-- C8, amended: the context field of every finding equals the
whitespace-stripped text (`line.strip()`) of the line in which the
finding occurred. -/
theorem c8_context_is_stripped_line (θ : ℝ) (f : String) (ls : List Chars) (err : Bool) :
    ∀ fd ∈ scan_file θ f ls err,
      ∃ line, ls.get? (fd.line - 1) = some line ∧ fd.context = strip line := by
  intro fd hfd
  obtain ⟨line, hget, _, hmem⟩ :=
    scan_lines_mem_cases (show fd ∈ scan_lines θ f 1 ls from hfd)
  exact ⟨line, hget, (scan_line_cases hmem).2.1⟩

/-- C8, witness: the finding of the indented AWS-key line. -/
theorem c8_witness :
    ∃ line, [line_aws_indent].get? 0 = some line ∧
      (Finding.mk "AWS Access Key" "HIGH" none "config.txt" 1 line_aws line_aws).context =
        strip line :=
  c8_context_is_stripped_line 4.5 "config.txt" [line_aws_indent] false
    (Finding.mk "AWS Access Key" "HIGH" none "config.txt" 1 line_aws line_aws)
    (by rw [scan_aws_indent_eval]; exact List.mem_singleton_self _)

/-- C9: a line that is exactly `AKIA1234567890ABCDEF` produces exactly
one finding: a signature finding of kind "AWS Access Key" with risk
HIGH whose matched value is the whole key, and no entropy-kind finding
(the 20-character run is below the 32-character unquoted minimum and
the line has no quotes). -/
theorem c9_aws_line_single_finding :
    scan_file 4.5 "config.txt" [line_aws] false =
      [ Finding.mk "AWS Access Key" "HIGH" none "config.txt" 1 line_aws line_aws ] :=
  scan_aws_eval false

/-- C10: the quoted-run extraction does not require the two quotes to
match: a line whose 20-character charset token is opened by a double
quote and closed by a single quote still yields that token (with the
quotes excluded) as an entropy candidate. -/
theorem c10_mismatched_quotes_extracted :
    extract_candidates line_mixed_quotes = ["ABCDEFGHIJKLMNOPQRST".data] := rfl
